import Mathlib

/-!
Verification of the forward-pass engine and topology-mutation model of the
`NeuralNetworkBuilder` class (script.js).

Modelling conventions:
* JS numbers are modelled as `JSNum := Option ℚ`; `none` stands for the
  non-numeric values `NaN` and `undefined`, which behave identically in the
  arithmetic the engine performs (both propagate to `NaN` under `+`/`*`, and
  both are falsy under `||`).
* JS arrays are Lean lists; a *hole* (an index that was skipped by a sparse
  assignment) in a weight matrix is a `none` row, and a hole inside a row is
  a `none` entry, since reading either yields `undefined`.
* The string-keyed objects `this.weights` (keys `"i-(i+1)"`) and
  `this.biases` (keys `"i"`) are modelled as functions `Nat → Option _`,
  the `Nat` being the left layer index resp. the layer index.
* Each call of `Math.random()` is modelled by consulting a supplied function
  `rand : Nat → Nat → Nat → ℚ` at the (layer pair, row, column) position of
  the entry being initialised; its `[0,1)` range is a hypothesis.
* The result of `parseFloat(value)` is modelled as `Option ℚ` (`none` = NaN,
  i.e. parse failure).
* The registry lookup `this.activationFunctions[this.activationFunction]`
  is modelled by passing the selected scalar function `act : ℚ → ℚ` directly.
-/

inductive LayerType
  | input
  | hidden
  | output
deriving DecidableEq

/-- One element of `this.layers`: `{ type, neurons, name }`. -/
structure Layer where
  type : LayerType
  neurons : Nat
  name : String
deriving DecidableEq

/-- A JS number; `none` models `NaN`/`undefined`. -/
abbrev JSNum := Option ℚ

/-- One row of a weight matrix (entries may be holes). -/
abbrev WRow := List JSNum

/-- A weight matrix: a JS array of rows, where a row may itself be a hole. -/
abbrev WMatrix := List (Option WRow)

/-- The mutable state of a `NeuralNetworkBuilder` instance (the fields the
core computation reads and writes). -/
structure NetworkState where
  layers : List Layer
  weights : Nat → Option WMatrix
  biases : Nat → Option WRow
  inputPattern : List ℚ
  activations : List WRow

/-- `this.layers[i].neurons` (0 when the index is out of range, which the
code never does). -/
def widthAt (ls : List Layer) (i : Nat) : Nat :=
  ((ls[i]?).map Layer.neurons).getD 0

/-- JS `+` on numbers: `NaN` propagates. -/
def jsAdd : JSNum → JSNum → JSNum
  | some a, some b => some (a + b)
  | _, _ => none

/-- JS `*` on numbers: `NaN` propagates. -/
def jsMul : JSNum → JSNum → JSNum
  | some a, some b => some (a * b)
  | _, _ => none

/-- JS `layerBiases[j] || 0` (line 160): an absent, `NaN`, or zero entry
yields `0`. -/
def jsOrZero (o : Option JSNum) : JSNum :=
  some (o.join.getD 0)

/-- JS `layerWeights[k] ? layerWeights[k][j] : 0` (line 163): a missing or
hole row is falsy and yields `0`; an existing row is indexed, so a missing
entry inside it yields `undefined` (here `none`). -/
def lookupW (m : WMatrix) (k j : Nat) : JSNum :=
  match m[k]? with
  | some (some row) => (row[j]?).join
  | _ => some 0

/-- The inner loop of `calculateForwardPass` (lines 160-165): starting from
`layerBiases[j] || 0`, add `prevLayerActivations[k] * weight` for each
`k < prevLayerActivations.length`. -/
def neuronSum (prev : WRow) (m : WMatrix) (bs : WRow) (j : Nat) : JSNum :=
  (List.range prev.length).foldl
    (fun sum k => jsAdd sum (jsMul (prev.getD k none) (lookupW m k j)))
    (jsOrZero bs[j]?)

/-- The middle loop of `calculateForwardPass` (lines 159-169): one output
entry per neuron `j` of the layer, each the activation of its sum. -/
def layerOutput (act : ℚ → ℚ) (prev : WRow) (m : WMatrix) (bs : WRow) (n : Nat) : WRow :=
  (List.range n).map (fun j => (neuronSum prev m bs j).map act)

/-- One iteration of the outer loop of `calculateForwardPass` for layer
`idx + 1` (lines 152-172): read the previous layer's activations and the
maps (`|| []` defaults), append the new layer's output. -/
def fpStep (act : ℚ → ℚ) (s : NetworkState) (acc : List WRow) (idx : Nat) : List WRow :=
  let prev := (acc[idx]?).getD []
  let m := (s.weights idx).getD []
  let bs := (s.biases (idx + 1)).getD []
  acc ++ [layerOutput act prev m bs (widthAt s.layers (idx + 1))]

/-- `calculateForwardPass` (lines 149-179): element `i` of the result is the
activation vector of layer `i`; layer `0` is a copy of the input pattern. -/
def calculateForwardPass (act : ℚ → ℚ) (s : NetworkState) : List WRow :=
  (List.range (s.layers.length - 1)).foldl (fpStep act s) [s.inputPattern.map some]

/-- Every mutation ends with `this.calculateForwardPass()` storing fresh
activations. -/
def recompute (act : ℚ → ℚ) (s : NetworkState) : NetworkState :=
  { s with activations := calculateForwardPass act s }

/-- The fixed MIM weight matrix (constructor lines 24-31, and
`removeHiddenLayer` lines 258-263). -/
def mimMatrix : WMatrix :=
  [some [some (1/2), some (-(1/2))],
   some [some (-(1/2)), some (1/2)],
   some [some (-(1/2)), some (1/2)],
   some [some (1/2), some (-(1/2))]]

/-- The constructor's initial layer list (lines 18-21). -/
def defaultLayers : List Layer :=
  [⟨LayerType.input, 4, "Input (4 pixels)"⟩,
   ⟨LayerType.output, 2, "Output (Diagonal Detection)"⟩]

/-- `Array(w).fill(0)`: a fresh all-zero bias vector. -/
def zeroBias (w : Nat) : WRow := List.replicate w (some 0)

/-- The constructor state (lines 16-46), before `init()` runs its first
forward pass (activations are derived state, rebuilt by every operation). -/
def initialState : NetworkState :=
  { layers := defaultLayers,
    weights := fun i => if i = 0 then some mimMatrix else none,
    biases := fun i => if i = 1 then some (zeroBias 2) else none,
    inputPattern := [1, 0, 0, 1],
    activations := [] }

/-- A freshly randomised `width(i) × width(i+1)` matrix for layer pair `i`
(`Array(from).fill().map(() => Array(to).fill().map(() => Math.random()*2-1))`,
lines 222-224). -/
def mkRandMatrix (rand : Nat → Nat → Nat → ℚ) (i wf wt : Nat) : WMatrix :=
  (List.range wf).map (fun k => some ((List.range wt).map (fun j => some (rand i k j * 2 - 1))))

/-- `addHiddenLayer` (lines 198-237): splice a width-3 hidden layer in at
index `length - 1`, then delete every weight/bias key and rebuild all of
them for the new layer sequence. -/
def addHiddenLayer (rand : Nat → Nat → Nat → ℚ) (act : ℚ → ℚ) (s : NetworkState) : NetworkState :=
  let L := s.layers.length
  let hiddenLayer : Layer := ⟨LayerType.hidden, 3, "Hidden " ++ toString (L - 1)⟩
  let newLayers := s.layers.take (L - 1) ++ [hiddenLayer] ++ s.layers.drop (L - 1)
  let newWeights : Nat → Option WMatrix := fun i =>
    if i < newLayers.length - 1 then
      some (mkRandMatrix rand i (widthAt newLayers i) (widthAt newLayers (i + 1)))
    else none
  let newBiases : Nat → Option WRow := fun i =>
    if 1 ≤ i ∧ i ≤ newLayers.length - 1 then some (zeroBias (widthAt newLayers i)) else none
  recompute act { s with layers := newLayers, weights := newWeights, biases := newBiases }

/-- `removeHiddenLayer` (lines 242-281): early return when at most two
layers remain; otherwise drop the last hidden layer
(`slice(0,-2).concat(slice(-1))`) and rebuild every weight/bias key, using
the fixed MIM matrix for pair `(0,1)` when exactly two layers remain. -/
def removeHiddenLayer (rand : Nat → Nat → Nat → ℚ) (act : ℚ → ℚ) (s : NetworkState) : NetworkState :=
  if s.layers.length ≤ 2 then s
  else
    let newLayers := s.layers.take (s.layers.length - 2) ++ s.layers.drop (s.layers.length - 1)
    let newWeights : Nat → Option WMatrix := fun i =>
      if i < newLayers.length - 1 then
        some (if i = 0 ∧ newLayers.length = 2 then mimMatrix
              else mkRandMatrix rand i (widthAt newLayers i) (widthAt newLayers (i + 1)))
      else none
    let newBiases : Nat → Option WRow := fun i =>
      if 1 ≤ i ∧ i ≤ newLayers.length - 1 then some (zeroBias (widthAt newLayers i)) else none
    recompute act { s with layers := newLayers, weights := newWeights, biases := newBiases }

/-- `resetToMIM` (lines 294-315): restore the default layers, MIM weights
and zero biases (the input pattern is left as it is). -/
def resetToMIM (act : ℚ → ℚ) (s : NetworkState) : NetworkState :=
  recompute act { s with
    layers := defaultLayers,
    weights := fun i => if i = 0 then some mimMatrix else none,
    biases := fun i => if i = 1 then some (zeroBias 2) else none }

/-- JS array index assignment `l[i] = v`: in range it overwrites, past the
end it appends holes (`pad`) and then `v`. -/
def jsSetList {α : Type} (l : List α) (i : Nat) (pad v : α) : List α :=
  if i < l.length then l.set i v
  else l ++ List.replicate (i - l.length) pad ++ [v]

/-- `updateWeight` (lines 324-336): create the matrix (`[]`) if the key is
absent, create the row (`[]`) if it is absent or a hole, then store
`parseFloat(value) || 0` at `[fromNeuron][toNeuron]`. -/
def updateWeight (act : ℚ → ℚ) (s : NetworkState) (layerKey fromNeuron toNeuron : Nat)
    (parsed : Option ℚ) : NetworkState :=
  let m0 : WMatrix := (s.weights layerKey).getD []
  let m1 : WMatrix :=
    match m0[fromNeuron]? with
    | some (some _) => m0
    | _ => jsSetList m0 fromNeuron none (some [])
  let row : WRow := ((m1[fromNeuron]?).join).getD []
  let m2 : WMatrix :=
    jsSetList m1 fromNeuron none (some (jsSetList row toNeuron none (some (parsed.getD 0))))
  recompute act { s with weights := fun k => if k = layerKey then some m2 else s.weights k }

/-- The pixel-grid click handler (lines 111-120):
`this.inputPattern[index] = 1 - this.inputPattern[index]`, then a fresh
forward pass. -/
def togglePixel (act : ℚ → ℚ) (s : NetworkState) (i : Nat) : NetworkState :=
  recompute act { s with inputPattern := s.inputPattern.set i (1 - s.inputPattern.getD i 0) }

/-- A present row of the expected length whose entries are all numbers. -/
def denseRow (w : Nat) : Option WRow → Bool
  | some r => r.length == w && r.all (fun x => x.isSome)
  | none => false

/-- A present matrix with `wf` dense rows of length `wt`. -/
def denseWMatrix (wf wt : Nat) : Option WMatrix → Bool
  | some m => m.length == wf && m.all (denseRow wt)
  | none => false

/-- Boolean form of the shape invariant of §3, checked over every adjacent
layer pair. -/
def shapeOK (s : NetworkState) : Bool :=
  (List.range (s.layers.length - 1)).all fun i =>
    denseWMatrix (widthAt s.layers i) (widthAt s.layers (i + 1)) (s.weights i) &&
    denseRow (widthAt s.layers (i + 1)) (s.biases (i + 1))

/-- The shape invariant of §3: for every adjacent layer pair `(i,i+1)` the
weight matrix exists with `width(i)` rows of length `width(i+1)` (all
entries numbers), and the bias vector for layer `i+1` exists with length
`width(i+1)` (all entries numbers). -/
def ShapeInvariant (s : NetworkState) : Prop :=
  shapeOK s = true

instance (s : NetworkState) : Decidable (ShapeInvariant s) :=
  inferInstanceAs (Decidable (shapeOK s = true))

/-- Unfolding of the shape invariant into its per-pair statements. -/
theorem shapeInvariant_iff (s : NetworkState) :
    ShapeInvariant s ↔
      ∀ i < s.layers.length - 1,
        denseWMatrix (widthAt s.layers i) (widthAt s.layers (i + 1)) (s.weights i) = true ∧
        denseRow (widthAt s.layers (i + 1)) (s.biases (i + 1)) = true := by
  simp [ShapeInvariant, shapeOK, List.all_eq_true, List.mem_range]

/-- The numeric value stored at row `k`, column `j` of a matrix (0 for
anything absent; only used where density guarantees presence). -/
def mEntry (m : WMatrix) (k j : Nat) : ℚ :=
  ((((m[k]?).join).getD [])[j]?).join.getD 0

/-- The numeric weight of the connection from neuron `k` of layer `i` to
neuron `j` of layer `i+1`. -/
def wVal (s : NetworkState) (i k j : Nat) : ℚ :=
  mEntry ((s.weights i).getD []) k j

/-- The numeric bias of neuron `j` of layer `i`. -/
def bVal (s : NetworkState) (i j : Nat) : ℚ :=
  ((((s.biases i).getD [])[j]?).join).getD 0

/-- Modelled from the spec's forward-pass formula (§4.3): layer 0 is the
input pattern, and `activation[i+1][j] = act (bias[i+1][j] + Σ_k
activation[i][k] * weight[(i,i+1)][k][j])` over all neurons `k` of layer
`i`. Used to state refinement of `calculateForwardPass`. -/
def specActivation (act : ℚ → ℚ) (s : NetworkState) : Nat → Nat → ℚ
  | 0, k => s.inputPattern.getD k 0
  | (i + 1), j =>
      act (bVal s (i + 1) j +
        ∑ k ∈ Finset.range (widthAt s.layers i), specActivation act s i k * wVal s i k j)

/-- Reads `this.weights[p][k][j]` as the forward pass would find it stored
(`none` when any level is absent). -/
def getWeightEntry (s : NetworkState) (p k j : Nat) : Option JSNum :=
  (s.weights p).bind (fun m => ((m[k]?).join).bind (fun r => r[j]?))

/-! ### Characterisation of the forward-pass loop -/

/-- The mathematical unrolling of the outer forward-pass loop: layer `i+1`
is produced from layer `i` by one execution of the loop body. -/
def fpChain (act : ℚ → ℚ) (s : NetworkState) : Nat → WRow
  | 0 => s.inputPattern.map some
  | i + 1 =>
      layerOutput act (fpChain act s i) ((s.weights i).getD [])
        ((s.biases (i + 1)).getD []) (widthAt s.layers (i + 1))

theorem jsAdd_none_right (x : JSNum) : jsAdd x none = none := by
  cases x <;> rfl

theorem jsAdd_none_left (x : JSNum) : jsAdd none x = none := by
  cases x <;> rfl

theorem jsMul_none_right (x : JSNum) : jsMul x none = none := by
  cases x <;> rfl

theorem fp_fold (act : ℚ → ℚ) (s : NetworkState) :
    ∀ n, (List.range n).foldl (fpStep act s) [fpChain act s 0] =
      (List.range (n + 1)).map (fpChain act s) := by
  intro n
  induction n with
  | zero => rfl
  | succ n ih =>
      rw [List.range_succ, List.foldl_append, ih]
      have hget : ((List.range (n + 1)).map (fpChain act s))[n]? = some (fpChain act s n) := by
        simp [List.getElem?_map, List.getElem?_range, Nat.lt_succ_self]
      conv_rhs => rw [List.range_succ]
      rw [List.map_append]
      simp only [List.foldl_cons, List.foldl_nil, fpStep, hget, Option.getD_some,
        List.map_cons, List.map_nil]
      rfl

theorem calculateForwardPass_eq_map (act : ℚ → ℚ) (s : NetworkState)
    (h : 1 ≤ s.layers.length) :
    calculateForwardPass act s = (List.range s.layers.length).map (fpChain act s) := by
  have h1 : s.layers.length - 1 + 1 = s.layers.length := Nat.succ_pred_eq_of_pos h
  rw [calculateForwardPass]
  have := fp_fold act s (s.layers.length - 1)
  rw [h1] at this
  exact this

theorem map_some_eq_range_map (l : List ℚ) :
    l.map some = (List.range l.length).map (fun k => some (l.getD k 0)) := by
  apply List.ext_getElem?
  intro i
  by_cases h : i < l.length
  · simp [List.getElem?_map, List.getElem?_range, h, List.getElem?_eq_getElem h,
      List.getD_eq_getElem?_getD]
  · have h1 : (List.range l.length)[i]? = none := by
      rw [List.getElem?_eq_none_iff]
      simpa using le_of_not_lt h
    have h2 : l[i]? = none := List.getElem?_eq_none (le_of_not_lt h)
    simp [List.getElem?_map, h1, h2]

theorem foldl_jsAdd_eq_sum (F : Nat → JSNum) (G : Nat → ℚ) (c : ℚ) :
    ∀ n, (∀ k < n, F k = some (G k)) →
      (List.range n).foldl (fun sum k => jsAdd sum (F k)) (some c) =
        some (c + ∑ k ∈ Finset.range n, G k) := by
  intro n
  induction n with
  | zero => simp
  | succ n ih =>
      intro h
      rw [List.range_succ, List.foldl_append, ih (fun k hk => h k (Nat.lt_succ_of_lt hk))]
      simp only [List.foldl_cons, List.foldl_nil, h n (Nat.lt_succ_self n), jsAdd,
        Finset.sum_range_succ]
      rw [add_assoc]

theorem foldl_jsAdd_absorb_none (F : Nat → JSNum) :
    ∀ (l : List Nat) (init : JSNum),
      ((∃ k ∈ l, F k = none) ∨ init = none) →
      l.foldl (fun sum k => jsAdd sum (F k)) init = none := by
  intro l
  induction l with
  | nil =>
      intro init h
      rcases h with ⟨k, hk, _⟩ | h
      · exact absurd hk (List.not_mem_nil k)
      · simpa using h
  | cons a t ih =>
      intro init h
      rw [List.foldl_cons]
      rcases h with ⟨k, hk, hFk⟩ | h
      · rcases List.mem_cons.mp hk with rfl | hkt
        · exact ih _ (Or.inr (by simp only [hFk, jsAdd_none_right]))
        · exact ih _ (Or.inl ⟨k, hkt, hFk⟩)
      · subst h
        exact ih _ (Or.inr (by simp only [jsAdd_none_left]))

/-! ### Dense access lemmas -/

theorem denseRow_some {w : Nat} {r : WRow} (h : denseRow w (some r) = true) :
    r.length = w ∧ ∀ x ∈ r, x.isSome = true := by
  simpa only [denseRow, Bool.and_eq_true, beq_iff_eq, List.all_eq_true] using h

theorem denseWMatrix_some {wf wt : Nat} {m : WMatrix} (h : denseWMatrix wf wt (some m) = true) :
    m.length = wf ∧ ∀ r ∈ m, denseRow wt r = true := by
  simpa only [denseWMatrix, Bool.and_eq_true, beq_iff_eq, List.all_eq_true] using h

theorem denseRow_elim {w : Nat} {o : Option WRow} (h : denseRow w o = true) :
    ∃ r, o = some r ∧ r.length = w ∧ ∀ x ∈ r, x.isSome = true := by
  cases o with
  | none => simp [denseRow] at h
  | some r => exact ⟨r, rfl, (denseRow_some h).1, (denseRow_some h).2⟩

theorem denseWMatrix_elim {wf wt : Nat} {o : Option WMatrix} (h : denseWMatrix wf wt o = true) :
    ∃ m, o = some m ∧ m.length = wf ∧ ∀ r ∈ m, denseRow wt r = true := by
  cases o with
  | none => simp [denseWMatrix] at h
  | some m => exact ⟨m, rfl, (denseWMatrix_some h).1, (denseWMatrix_some h).2⟩

theorem lookupW_dense {wf wt : Nat} {m : WMatrix} (h : denseWMatrix wf wt (some m) = true)
    {k j : Nat} (hk : k < wf) (hj : j < wt) :
    lookupW m k j = some (mEntry m k j) := by
  obtain ⟨hlen, hrows⟩ := denseWMatrix_some h
  have hk' : k < m.length := by rw [hlen] ; exact hk
  have hmem : m[k] ∈ m := List.getElem_mem hk'
  obtain ⟨r, hr, hrlen, hentries⟩ := denseRow_elim (hrows m[k] hmem)
  have hj' : j < r.length := by rw [hrlen] ; exact hj
  have hxmem : r[j] ∈ r := List.getElem_mem hj'
  obtain ⟨q, hq⟩ := Option.isSome_iff_exists.mp (hentries r[j] hxmem)
  have hmk : m[k]? = some (some r) := by
    rw [List.getElem?_eq_getElem hk', hr]
  have hrj : r[j]? = some (some q) := by
    rw [List.getElem?_eq_getElem hj', hq]
  rw [lookupW, hmk, mEntry, hmk]
  simp [hrj]

theorem neuronSum_dense {wf wt : Nat} (g : Nat → ℚ) {prev : WRow} {m : WMatrix} {bs : WRow}
    {j : Nat} (hm : denseWMatrix wf wt (some m) = true) (hj : j < wt)
    (hplen : prev.length = wf) (hpv : ∀ k < wf, prev.getD k none = some (g k)) :
    neuronSum prev m bs j =
      some (((bs[j]?).join).getD 0 + ∑ k ∈ Finset.range wf, g k * mEntry m k j) := by
  have key := foldl_jsAdd_eq_sum
      (fun k => jsMul (prev.getD k none) (lookupW m k j))
      (fun k => g k * mEntry m k j) (((bs[j]?).join).getD 0) wf ?_
  · rw [neuronSum, hplen]
    simpa [jsOrZero] using key
  · intro k hk
    simp only [hpv k hk, lookupW_dense hm hk hj, jsMul]

/-! ### The forward pass refines the spec formula -/

theorem fpChain_spec (act : ℚ → ℚ) (s : NetworkState) (hs : ShapeInvariant s)
    (hlen : s.inputPattern.length = widthAt s.layers 0) :
    ∀ i, i < s.layers.length →
      fpChain act s i =
        (List.range (widthAt s.layers i)).map (fun j => some (specActivation act s i j)) := by
  intro i
  induction i with
  | zero =>
      intro _
      rw [fpChain, map_some_eq_range_map, hlen]
      rfl
  | succ i ih =>
      intro hi
      have hi' : i < s.layers.length := Nat.lt_of_succ_lt hi
      have hpair : i < s.layers.length - 1 := by omega
      obtain ⟨hw, _⟩ := (shapeInvariant_iff s).mp hs i hpair
      obtain ⟨m, hm, _, _⟩ := denseWMatrix_elim hw
      have hw2 := hw
      rw [hm] at hw2
      have hw' : denseWMatrix (widthAt s.layers i) (widthAt s.layers (i + 1))
          (some ((s.weights i).getD [])) = true := by rw [hm] ; exact hw2
      rw [fpChain, ih hi', layerOutput]
      apply List.map_congr_left
      intro j hjmem
      have hj : j < widthAt s.layers (i + 1) := List.mem_range.mp hjmem
      have hplen : ((List.range (widthAt s.layers i)).map
          (fun j => some (specActivation act s i j))).length = widthAt s.layers i := by simp
      have hpv : ∀ k < widthAt s.layers i,
          ((List.range (widthAt s.layers i)).map
            (fun j => some (specActivation act s i j))).getD k none =
            some (specActivation act s i k) := by
        intro k hk
        rw [List.getD_eq_getElem?_getD]
        simp [List.getElem?_map, List.getElem?_range, hk]
      rw [neuronSum_dense (fun k => specActivation act s i k) hw' hj hplen hpv]
      rfl

theorem foldl_fpStep_prefix (act : ℚ → ℚ) (s : NetworkState) :
    ∀ (l : List Nat) (acc : List WRow), ∃ t, l.foldl (fpStep act s) acc = acc ++ t := by
  intro l
  induction l with
  | nil => exact fun acc => ⟨[], by simp⟩
  | cons a tl ih =>
      intro acc
      obtain ⟨t, ht⟩ := ih (fpStep act s acc a)
      rw [List.foldl_cons, ht, fpStep]
      exact ⟨[layerOutput act ((acc[a]?).getD []) ((s.weights a).getD [])
        ((s.biases (a + 1)).getD []) (widthAt s.layers (a + 1))] ++ t,
        by rw [List.append_assoc]⟩

/-- C1: for a topology satisfying the shape invariant, an input pattern of
length `width(0)` and any activation function (covering the four registry
choices), the forward pass puts exactly the input pattern at layer 0 (no
activation applied) and at every layer `i ≥ 1` the vector given by the
spec's recurrence `activation[i][j] = act (bias[i][j] + Σ_k
activation[i-1][k] * weight[(i-1,i)][k][j])`, as captured by
`specActivation`. -/
theorem calculateForwardPass_matches_spec (act : ℚ → ℚ) (s : NetworkState)
    (hs : ShapeInvariant s) (hlen : s.inputPattern.length = widthAt s.layers 0) :
    (calculateForwardPass act s)[0]? = some (s.inputPattern.map some) ∧
    ∀ i, i < s.layers.length →
      (calculateForwardPass act s)[i]? =
        some ((List.range (widthAt s.layers i)).map
          (fun j => some (specActivation act s i j))) := by
  constructor
  · obtain ⟨t, ht⟩ := foldl_fpStep_prefix act s (List.range (s.layers.length - 1))
      [s.inputPattern.map some]
    rw [calculateForwardPass, ht]
    rw [List.getElem?_append_left (by simp)]
    rfl
  · intro i hi
    have h1 : 1 ≤ s.layers.length := by omega
    rw [calculateForwardPass_eq_map act s h1]
    rw [List.getElem?_map]
    have : (List.range s.layers.length)[i]? = some i := by
      simp [List.getElem?_range, hi]
    rw [this]
    exact congrArg some (fpChain_spec act s hs hlen i hi)

/-- Witness for C1 at the constructor state with the linear activation. -/
theorem calculateForwardPass_matches_spec_witness :
    (ShapeInvariant initialState ∧
      initialState.inputPattern.length = widthAt initialState.layers 0) ∧
    ((calculateForwardPass id initialState)[0]? = some (initialState.inputPattern.map some) ∧
      ∀ i, i < initialState.layers.length →
        (calculateForwardPass id initialState)[i]? =
          some ((List.range (widthAt initialState.layers i)).map
            (fun j => some (specActivation id initialState i j)))) :=
  ⟨⟨by decide, by decide⟩,
    calculateForwardPass_matches_spec id initialState (by decide) (by decide)⟩

/-! ### Behaviour on missing weight entries -/

/-- A transient state whose weights object has the key for pair `(0,1)` with
row 0 present but empty, so the entry `[0][0]` is absent inside an existing
row. -/
def missingEntryState : NetworkState :=
  { layers := [⟨LayerType.input, 1, "In"⟩, ⟨LayerType.output, 1, "Out"⟩],
    weights := fun i => if i = 0 then some [some []] else none,
    biases := fun i => if i = 1 then some [some 0] else none,
    inputPattern := [1],
    activations := [] }

/-- The same state with the entry `[0][0]` explicitly present as `0.0`. -/
def filledEntryState : NetworkState :=
  { missingEntryState with
    weights := fun i => if i = 0 then some [some [some 0]] else none }

/-- Counterexample to C2: when the entry is absent inside an existing row,
the forward pass produces `NaN` (`none`) for the affected neuron, whereas
storing an explicit `0.0` there produces the activation `0` — so the
missing entry is *not* treated as `0.0`, and the activation *is* `NaN`
solely because of the missing entry (`linear` activation). -/
theorem missingEntry_yields_NaN :
    calculateForwardPass id missingEntryState = [[some 1], [none]] ∧
    calculateForwardPass id filledEntryState = [[some 1], [some 0]] := by
  constructor
  · decide
  · norm_num [calculateForwardPass, fpStep, layerOutput, neuronSum, lookupW, jsOrZero,
      jsAdd, jsMul, filledEntryState, missingEntryState, widthAt,
      List.range_succ, List.getD]

/-- C2 amended: for a neuron with numeric previous-layer activations, (a) if
the whole matrix for the pair is absent, or each row is absent or a hole,
every weight contributes as if it were `0.0`, so the sum is exactly the
bias default (`0.0` when the bias is also missing); but (b) if some row
exists and the entry for the target neuron is absent inside it, the sum is
`NaN` (`none`). -/
theorem neuronSum_missing_behaviour (prev : WRow) (m : WMatrix) (bs : WRow) (j : Nat) :
    ((∀ x ∈ prev, x.isSome = true) → (∀ k, k < prev.length → (m[k]?).join = none) →
      neuronSum prev m bs j = some (((bs[j]?).join).getD 0)) ∧
    (∀ k, k < prev.length → ∀ r, m[k]? = some (some r) → (r[j]?).join = none →
      neuronSum prev m bs j = none) := by
  constructor
  · intro hprev hrows
    have hlook : ∀ k, k < prev.length → lookupW m k j = some 0 := by
      intro k hk
      rw [lookupW]
      have := hrows k hk
      rcases hmk : m[k]? with _ | o
      · rfl
      · cases o with
        | none => rfl
        | some r => rw [hmk] at this ; simp at this
    have hval : ∀ k, k < prev.length →
        prev.getD k none = some ((prev.getD k none).getD 0) := by
      intro k hk
      have : prev.getD k none = prev[k] := by
        rw [List.getD_eq_getElem?_getD, List.getElem?_eq_getElem hk]
        rfl
      rw [this]
      obtain ⟨q, hq⟩ := Option.isSome_iff_exists.mp (hprev prev[k] (List.getElem_mem hk))
      rw [hq]
      rfl
    have key := foldl_jsAdd_eq_sum
        (fun k => jsMul (prev.getD k none) (lookupW m k j))
        (fun k => ((prev.getD k none).getD 0) * 0) (((bs[j]?).join).getD 0)
        prev.length ?_
    · rw [neuronSum]
      have : ∑ k ∈ Finset.range prev.length, ((prev.getD k none).getD 0) * 0 = 0 := by
        simp
      rw [this, add_zero] at key
      simpa [jsOrZero] using key
    · intro k hk
      show jsMul (prev.getD k none) (lookupW m k j) =
        some (((prev.getD k none).getD 0) * 0)
      rw [hlook k hk]
      conv_lhs => rw [hval k hk]
      simp only [jsMul]
  · intro k hk r hr hrj
    rw [neuronSum]
    apply foldl_jsAdd_absorb_none
    refine Or.inl ⟨k, List.mem_range.mpr hk, ?_⟩
    have : lookupW m k j = none := by
      rw [lookupW, hr]
      exact hrj
    simp only [this, jsMul_none_right]

/-- Witness for the amended C2: part (a) at a missing matrix, part (b) at
the row-present-entry-absent configuration. -/
theorem neuronSum_missing_behaviour_witness :
    neuronSum [some 1] [] [some 0] 0 = some 0 ∧
    neuronSum [some 1] [some []] [some 0] 0 = none :=
  ⟨(neuronSum_missing_behaviour [some 1] [] [some 0] 0).1 (by decide) (by decide),
    (neuronSum_missing_behaviour [some 1] [some []] [some 0] 0).2 0 (by decide) []
      (by decide) (by decide)⟩

/-! ### Shape of the rebuilt maps -/

theorem denseRow_zeroBias (w : Nat) : denseRow w (some (zeroBias w)) = true := by
  simp [denseRow, zeroBias, List.all_eq_true]

theorem denseWMatrix_mkRand (rand : Nat → Nat → Nat → ℚ) (i wf wt : Nat) :
    denseWMatrix wf wt (some (mkRandMatrix rand i wf wt)) = true := by
  simp [denseWMatrix, mkRandMatrix, List.all_eq_true, denseRow]

theorem denseWMatrix_mim : denseWMatrix 4 2 (some mimMatrix) = true := by decide

theorem addHiddenLayer_layers (rand : Nat → Nat → Nat → ℚ) (act : ℚ → ℚ) (s : NetworkState) :
    (addHiddenLayer rand act s).layers =
      s.layers.take (s.layers.length - 1) ++
        [⟨LayerType.hidden, 3, "Hidden " ++ toString (s.layers.length - 1)⟩] ++
        s.layers.drop (s.layers.length - 1) := rfl

theorem addHiddenLayer_weights (rand : Nat → Nat → Nat → ℚ) (act : ℚ → ℚ) (s : NetworkState)
    (i : Nat) :
    (addHiddenLayer rand act s).weights i =
      if i < (addHiddenLayer rand act s).layers.length - 1 then
        some (mkRandMatrix rand i (widthAt (addHiddenLayer rand act s).layers i)
          (widthAt (addHiddenLayer rand act s).layers (i + 1)))
      else none := rfl

theorem addHiddenLayer_biases (rand : Nat → Nat → Nat → ℚ) (act : ℚ → ℚ) (s : NetworkState)
    (i : Nat) :
    (addHiddenLayer rand act s).biases i =
      if 1 ≤ i ∧ i ≤ (addHiddenLayer rand act s).layers.length - 1 then
        some (zeroBias (widthAt (addHiddenLayer rand act s).layers i))
      else none := rfl

theorem addHiddenLayer_inputPattern (rand : Nat → Nat → Nat → ℚ) (act : ℚ → ℚ)
    (s : NetworkState) :
    (addHiddenLayer rand act s).inputPattern = s.inputPattern := rfl

theorem shapeInvariant_addHiddenLayer (rand : Nat → Nat → Nat → ℚ) (act : ℚ → ℚ)
    (s : NetworkState) : ShapeInvariant (addHiddenLayer rand act s) := by
  rw [shapeInvariant_iff]
  intro i hi
  have hcond : 1 ≤ i + 1 ∧ i + 1 ≤ (addHiddenLayer rand act s).layers.length - 1 := by omega
  rw [addHiddenLayer_weights, addHiddenLayer_biases, if_pos hi, if_pos hcond]
  exact ⟨denseWMatrix_mkRand rand i _ _, denseRow_zeroBias _⟩

theorem resetToMIM_layers (act : ℚ → ℚ) (s : NetworkState) :
    (resetToMIM act s).layers = defaultLayers := rfl

theorem resetToMIM_weights (act : ℚ → ℚ) (s : NetworkState) (i : Nat) :
    (resetToMIM act s).weights i = if i = 0 then some mimMatrix else none := rfl

theorem resetToMIM_biases (act : ℚ → ℚ) (s : NetworkState) (i : Nat) :
    (resetToMIM act s).biases i = if i = 1 then some (zeroBias 2) else none := rfl

theorem shapeInvariant_resetToMIM (act : ℚ → ℚ) (s : NetworkState) :
    ShapeInvariant (resetToMIM act s) := by
  rw [shapeInvariant_iff]
  intro i hi
  rw [resetToMIM_layers] at hi ⊢
  have hi0 : i = 0 := by
    have : defaultLayers.length = 2 := rfl
    omega
  subst hi0
  rw [resetToMIM_weights, resetToMIM_biases]
  constructor
  · decide
  · decide

theorem removeHiddenLayer_eq (rand : Nat → Nat → Nat → ℚ) (act : ℚ → ℚ) (s : NetworkState)
    (h : ¬ s.layers.length ≤ 2) :
    removeHiddenLayer rand act s =
      recompute act { s with
        layers := s.layers.take (s.layers.length - 2) ++ s.layers.drop (s.layers.length - 1),
        weights := fun i =>
          if i < (s.layers.take (s.layers.length - 2) ++
              s.layers.drop (s.layers.length - 1)).length - 1 then
            some (if i = 0 ∧ (s.layers.take (s.layers.length - 2) ++
                s.layers.drop (s.layers.length - 1)).length = 2 then mimMatrix
              else mkRandMatrix rand i
                (widthAt (s.layers.take (s.layers.length - 2) ++
                  s.layers.drop (s.layers.length - 1)) i)
                (widthAt (s.layers.take (s.layers.length - 2) ++
                  s.layers.drop (s.layers.length - 1)) (i + 1)))
          else none,
        biases := fun i =>
          if 1 ≤ i ∧ i ≤ (s.layers.take (s.layers.length - 2) ++
              s.layers.drop (s.layers.length - 1)).length - 1 then
            some (zeroBias (widthAt (s.layers.take (s.layers.length - 2) ++
              s.layers.drop (s.layers.length - 1)) i))
          else none } := by
  rw [removeHiddenLayer, if_neg h]

theorem removedLayers_length (s : NetworkState) (h : ¬ s.layers.length ≤ 2) :
    (s.layers.take (s.layers.length - 2) ++ s.layers.drop (s.layers.length - 1)).length =
      s.layers.length - 1 := by
  rw [List.length_append, List.length_take, List.length_drop]
  omega

theorem removedLayers_width0 (s : NetworkState) (h3 : 2 < s.layers.length) :
    widthAt (s.layers.take (s.layers.length - 2) ++ s.layers.drop (s.layers.length - 1)) 0 =
      widthAt s.layers 0 := by
  have h0 : 0 < (s.layers.take (s.layers.length - 2)).length := by
    rw [List.length_take] ; omega
  rw [widthAt, widthAt, List.getElem?_append_left h0, List.getElem?_take,
    if_pos (show 0 < s.layers.length - 2 by omega)]

theorem removedLayers_width1_of_three (s : NetworkState) (h3 : s.layers.length = 3) :
    widthAt (s.layers.take (s.layers.length - 2) ++ s.layers.drop (s.layers.length - 1)) 1 =
      widthAt s.layers 2 := by
  have hlen : (s.layers.take (s.layers.length - 2)).length = 1 := by
    rw [List.length_take] ; omega
  have hge : (s.layers.take (s.layers.length - 2)).length ≤ 1 := by rw [hlen]
  rw [widthAt, widthAt, List.getElem?_append_right hge, hlen, List.getElem?_drop]
  have h2 : s.layers.length - 1 + (1 - 1) = 2 := by omega
  rw [h2]

theorem shapeInvariant_removeHiddenLayer (rand : Nat → Nat → Nat → ℚ) (act : ℚ → ℚ)
    (s : NetworkState) (hs : ShapeInvariant s)
    (hmim : s.layers.length = 3 → widthAt s.layers 0 = 4 ∧ widthAt s.layers 2 = 2) :
    ShapeInvariant (removeHiddenLayer rand act s) := by
  by_cases h2 : s.layers.length ≤ 2
  · rw [removeHiddenLayer, if_pos h2]
    exact hs
  · rw [removeHiddenLayer_eq rand act s h2, shapeInvariant_iff]
    intro i hi
    simp only [recompute] at hi ⊢
    constructor
    · rw [if_pos hi]
      by_cases hmimcase : i = 0 ∧ (s.layers.take (s.layers.length - 2) ++
          s.layers.drop (s.layers.length - 1)).length = 2
      · rw [if_pos hmimcase]
        obtain ⟨hi0, hlen2⟩ := hmimcase
        have h3 : s.layers.length = 3 := by
          rw [removedLayers_length s h2] at hlen2
          omega
        obtain ⟨hw0, hw2⟩ := hmim h3
        subst hi0
        rw [removedLayers_width0 s (by omega), hw0,
          removedLayers_width1_of_three s h3, hw2]
        exact denseWMatrix_mim
      · rw [if_neg hmimcase]
        exact denseWMatrix_mkRand rand i _ _
    · have hcond : 1 ≤ i + 1 ∧ i + 1 ≤ (s.layers.take (s.layers.length - 2) ++
          s.layers.drop (s.layers.length - 1)).length - 1 := by omega
      rw [if_pos hcond]
      exact denseRow_zeroBias _

/-! ### updateWeight under the shape invariant -/

theorem updateWeight_layers (act : ℚ → ℚ) (s : NetworkState) (p f t : Nat)
    (parsed : Option ℚ) : (updateWeight act s p f t parsed).layers = s.layers := rfl

theorem updateWeight_biases (act : ℚ → ℚ) (s : NetworkState) (p f t : Nat)
    (parsed : Option ℚ) : (updateWeight act s p f t parsed).biases = s.biases := rfl

theorem updateWeight_inputPattern (act : ℚ → ℚ) (s : NetworkState) (p f t : Nat)
    (parsed : Option ℚ) : (updateWeight act s p f t parsed).inputPattern = s.inputPattern := rfl

/-- When the addressed matrix and row are present and the indices are in
range, `updateWeight` is exactly a nested `List.set`. -/
theorem updateWeight_dense_eq (act : ℚ → ℚ) (s : NetworkState) (p f t : Nat)
    (parsed : Option ℚ) {m : WMatrix} {r : WRow} (hm : s.weights p = some m)
    (hmf : m[f]? = some (some r)) (hfl : f < m.length) (htl : t < r.length) :
    updateWeight act s p f t parsed =
      recompute act
        ({ s with weights := fun k =>
            if k = p then some (m.set f (some (r.set t (some (parsed.getD 0)))))
            else s.weights k }) := by
  rw [updateWeight]
  simp only [hm, Option.getD_some, hmf, Option.join, Option.some_bind, id_eq, jsSetList,
    if_pos hfl, if_pos htl]

/-- The shape invariant is preserved by an in-range weight edit. -/
theorem shapeInvariant_updateWeight (act : ℚ → ℚ) (s : NetworkState) (p f t : Nat)
    (parsed : Option ℚ) (hs : ShapeInvariant s) (hp : p + 1 < s.layers.length)
    (hf : f < widthAt s.layers p) (ht : t < widthAt s.layers (p + 1)) :
    ShapeInvariant (updateWeight act s p f t parsed) := by
  have hpair : p < s.layers.length - 1 := by omega
  obtain ⟨hw, _⟩ := (shapeInvariant_iff s).mp hs p hpair
  obtain ⟨m, hm, hmlen, hrows⟩ := denseWMatrix_elim hw
  have hfl : f < m.length := by rw [hmlen] ; exact hf
  obtain ⟨r, hr, hrlen, hentries⟩ := denseRow_elim (hrows m[f] (List.getElem_mem hfl))
  have htl : t < r.length := by rw [hrlen] ; exact ht
  have hmf : m[f]? = some (some r) := by rw [List.getElem?_eq_getElem hfl, hr]
  rw [updateWeight_dense_eq act s p f t parsed hm hmf hfl htl, shapeInvariant_iff]
  intro i hi
  simp only [recompute] at hi ⊢
  constructor
  · by_cases hip : i = p
    · subst hip
      rw [if_pos rfl]
      rw [denseWMatrix.eq_def]
      apply (Bool.and_eq_true _ _).mpr
      constructor
      · simp [hmlen]
      · rw [List.all_eq_true]
        intro ro hro
        rcases List.mem_or_eq_of_mem_set hro with hro' | hro'
        · exact hrows ro hro'
        · subst hro'
          rw [denseRow.eq_def]
          apply (Bool.and_eq_true _ _).mpr
          constructor
          · simp [hrlen]
          · rw [List.all_eq_true]
            intro x hx
            rcases List.mem_or_eq_of_mem_set hx with hx' | hx'
            · exact hentries x hx'
            · subst hx'
              rfl
    · rw [if_neg hip]
      exact ((shapeInvariant_iff s).mp hs i hi).1
  · exact ((shapeInvariant_iff s).mp hs i hi).2

/-- A fixed stand-in for `Math.random` used in concrete instantiations. -/
def zeroRand : Nat → Nat → Nat → ℚ := fun _ _ _ => 0

/-- A shape-valid three-layer state whose endpoint widths are 1 and 1
rather than the MIM 4 and 2. -/
def thinState : NetworkState :=
  { layers := [⟨LayerType.input, 1, "In"⟩, ⟨LayerType.hidden, 1, "Mid"⟩,
      ⟨LayerType.output, 1, "Out"⟩],
    weights := fun i => if i ≤ 1 then some [some [some 0]] else none,
    biases := fun i => if 1 ≤ i ∧ i ≤ 2 then some [some 0] else none,
    inputPattern := [0],
    activations := [] }

/-- Counterexample to C3: `thinState` satisfies the shape invariant, yet
after `removeHiddenLayer` (which installs the hard-coded 4×2 MIM matrix
for pair `(0,1)` whenever exactly two layers remain, regardless of the
actual widths) the invariant fails. -/
theorem removeHiddenLayer_breaks_shape :
    ShapeInvariant thinState ∧
    ¬ ShapeInvariant (removeHiddenLayer zeroRand id thinState) := by
  constructor
  · decide
  · decide

/-- C3 (amended): for a state satisfying §3's invariants, `resetToDefault`,
`addHiddenLayer` and an in-range `setWeight` on an existing adjacent pair
re-establish the shape invariant; `removeHiddenLayer` does too, provided
that a removal leaving exactly two layers happens at the MIM endpoint
widths `width(0) = 4`, `width(last) = 2` (true of every reachable state) —
without that proviso the hard-coded 4×2 MIM matrix it installs for pair
`(0,1)` violates the invariant. -/
theorem mutations_shape_invariant (rand : Nat → Nat → Nat → ℚ) (act : ℚ → ℚ)
    (s : NetworkState) (p f t : Nat) (parsed : Option ℚ)
    (hs : ShapeInvariant s)
    (hmim : s.layers.length = 3 → widthAt s.layers 0 = 4 ∧ widthAt s.layers 2 = 2)
    (hp : p + 1 < s.layers.length) (hf : f < widthAt s.layers p)
    (ht : t < widthAt s.layers (p + 1)) :
    ShapeInvariant (resetToMIM act s) ∧
    ShapeInvariant (addHiddenLayer rand act s) ∧
    ShapeInvariant (removeHiddenLayer rand act s) ∧
    ShapeInvariant (updateWeight act s p f t parsed) :=
  ⟨shapeInvariant_resetToMIM act s, shapeInvariant_addHiddenLayer rand act s,
    shapeInvariant_removeHiddenLayer rand act s hs hmim,
    shapeInvariant_updateWeight act s p f t parsed hs hp hf ht⟩

/-- Witness for the amended C3 at the constructor state, editing weight
`(0,1)[0][0]`. -/
theorem mutations_shape_invariant_witness :
    ShapeInvariant (resetToMIM id initialState) ∧
    ShapeInvariant (addHiddenLayer zeroRand id initialState) ∧
    ShapeInvariant (removeHiddenLayer zeroRand id initialState) ∧
    ShapeInvariant (updateWeight id initialState 0 0 0 (some 1)) :=
  mutations_shape_invariant zeroRand id initialState 0 0 0 (some 1)
    (by decide) (by decide) (by decide) (by decide) (by decide)

/-! ### addHiddenLayer: insertion position and rebuilt values -/

theorem addHiddenLayer_layers_length (rand : Nat → Nat → Nat → ℚ) (act : ℚ → ℚ)
    (s : NetworkState) (hL : 1 ≤ s.layers.length) :
    (addHiddenLayer rand act s).layers.length = s.layers.length + 1 := by
  rw [addHiddenLayer_layers]
  simp only [List.length_append, List.length_take, List.length_drop, List.length_cons,
    List.length_nil]
  omega

theorem mkRandMatrix_entries (rand : Nat → Nat → Nat → ℚ)
    (hr : ∀ a b c, 0 ≤ rand a b c ∧ rand a b c < 1) (i wf wt : Nat) :
    (mkRandMatrix rand i wf wt).length = wf ∧
    ∀ ro ∈ mkRandMatrix rand i wf wt, ∃ r, ro = some r ∧ r.length = wt ∧
      ∀ x ∈ r, ∃ q, x = some q ∧ -1 ≤ q ∧ q ≤ 1 := by
  constructor
  · simp [mkRandMatrix]
  · intro ro hro
    rw [mkRandMatrix] at hro
    obtain ⟨k, hk, rfl⟩ := List.mem_map.mp hro
    refine ⟨_, rfl, by simp, ?_⟩
    intro x hx
    obtain ⟨j, hj, rfl⟩ := List.mem_map.mp hx
    refine ⟨_, rfl, ?_, ?_⟩
    · have := (hr i k j).1
      linarith
    · have := (hr i k j).2
      linarith

/-- C4: with at least two layers, `addHiddenLayer` inserts exactly one
hidden layer of width 3 at index `layers.length - 1` (layers below it and
the final layer are preserved), and rebuilds every weight matrix (entries
drawn in `[-1, 1]`) and every bias vector (all zeros) for every adjacent
pair of the new sequence, including pairs whose widths did not change. -/
theorem addHiddenLayer_spec (rand : Nat → Nat → Nat → ℚ) (act : ℚ → ℚ) (s : NetworkState)
    (hL : 2 ≤ s.layers.length) (hr : ∀ a b c, 0 ≤ rand a b c ∧ rand a b c < 1) :
    (addHiddenLayer rand act s).layers.length = s.layers.length + 1 ∧
    (addHiddenLayer rand act s).layers[s.layers.length - 1]? =
      some ⟨LayerType.hidden, 3, "Hidden " ++ toString (s.layers.length - 1)⟩ ∧
    (∀ i, i < s.layers.length - 1 →
      (addHiddenLayer rand act s).layers[i]? = s.layers[i]?) ∧
    (addHiddenLayer rand act s).layers[s.layers.length]? =
      s.layers[s.layers.length - 1]? ∧
    ∀ i, i < (addHiddenLayer rand act s).layers.length - 1 →
      (∃ m, (addHiddenLayer rand act s).weights i = some m ∧
        m.length = widthAt (addHiddenLayer rand act s).layers i ∧
        ∀ ro ∈ m, ∃ r, ro = some r ∧
          r.length = widthAt (addHiddenLayer rand act s).layers (i + 1) ∧
          ∀ x ∈ r, ∃ q, x = some q ∧ -1 ≤ q ∧ q ≤ 1) ∧
      (addHiddenLayer rand act s).biases (i + 1) =
        some (zeroBias (widthAt (addHiddenLayer rand act s).layers (i + 1))) := by
  have hA : (s.layers.take (s.layers.length - 1)).length = s.layers.length - 1 := by
    rw [List.length_take]
    omega
  refine ⟨addHiddenLayer_layers_length rand act s (by omega), ?_, ?_, ?_, ?_⟩
  · rw [addHiddenLayer_layers]
    rw [List.getElem?_append_left (by
      rw [List.length_append, hA, List.length_cons, List.length_nil]
      omega)]
    rw [List.getElem?_append_right (le_of_eq hA), hA, Nat.sub_self]
    rfl
  · intro i hi
    rw [addHiddenLayer_layers]
    rw [List.getElem?_append_left (by
      rw [List.length_append, hA, List.length_cons, List.length_nil]
      omega)]
    rw [List.getElem?_append_left (by rw [hA] ; omega)]
    rw [List.getElem?_take, if_pos (by omega : i < s.layers.length - 1)]
  · rw [addHiddenLayer_layers]
    rw [List.getElem?_append_right (by
      rw [List.length_append, hA, List.length_cons, List.length_nil]
      omega)]
    rw [List.length_append, hA, List.length_cons, List.length_nil]
    have harith : s.layers.length - (s.layers.length - 1 + (0 + 1)) = 0 := by omega
    rw [harith, List.getElem?_drop, Nat.add_zero]
  · intro i hi
    have hcond : 1 ≤ i + 1 ∧ i + 1 ≤ (addHiddenLayer rand act s).layers.length - 1 := by
      omega
    obtain ⟨hmlen, hmrows⟩ := mkRandMatrix_entries rand hr i
      (widthAt (addHiddenLayer rand act s).layers i)
      (widthAt (addHiddenLayer rand act s).layers (i + 1))
    refine ⟨⟨_, ?_, hmlen, hmrows⟩, ?_⟩
    · rw [addHiddenLayer_weights, if_pos hi]
    · rw [addHiddenLayer_biases, if_pos hcond]

/-- Witness for C4 at the constructor state with the all-zero random
source. -/
theorem addHiddenLayer_spec_witness :
    (2 ≤ initialState.layers.length ∧ ∀ a b c, 0 ≤ zeroRand a b c ∧ zeroRand a b c < 1) ∧
    ((addHiddenLayer zeroRand id initialState).layers.length =
        initialState.layers.length + 1 ∧
      (addHiddenLayer zeroRand id initialState).layers[initialState.layers.length - 1]? =
        some ⟨LayerType.hidden, 3, "Hidden " ++ toString (initialState.layers.length - 1)⟩ ∧
      (∀ i, i < initialState.layers.length - 1 →
        (addHiddenLayer zeroRand id initialState).layers[i]? = initialState.layers[i]?) ∧
      (addHiddenLayer zeroRand id initialState).layers[initialState.layers.length]? =
        initialState.layers[initialState.layers.length - 1]? ∧
      ∀ i, i < (addHiddenLayer zeroRand id initialState).layers.length - 1 →
        (∃ m, (addHiddenLayer zeroRand id initialState).weights i = some m ∧
          m.length = widthAt (addHiddenLayer zeroRand id initialState).layers i ∧
          ∀ ro ∈ m, ∃ r, ro = some r ∧
            r.length = widthAt (addHiddenLayer zeroRand id initialState).layers (i + 1) ∧
            ∀ x ∈ r, ∃ q, x = some q ∧ -1 ≤ q ∧ q ≤ 1) ∧
        (addHiddenLayer zeroRand id initialState).biases (i + 1) =
          some (zeroBias (widthAt (addHiddenLayer zeroRand id initialState).layers (i + 1)))) :=
  ⟨⟨by decide, fun _ _ _ => ⟨le_refl 0, one_pos⟩⟩,
    addHiddenLayer_spec zeroRand id initialState (by decide)
      (fun _ _ _ => ⟨le_refl 0, one_pos⟩)⟩

/-- C5: on any three-layer state (input, one hidden, output — output width
2 as in the MIM architecture), `removeHiddenLayer` leaves exactly two
layers, sets the pair-`(0,1)` weights to exactly the fixed MIM matrix and
the layer-1 biases to `[0,0]`; in particular, starting from the default
state, `addHiddenLayer` followed by `removeHiddenLayer` leaves the
pair-`(0,1)` weights exactly equal to the MIM matrix, for every random
source. -/
theorem removeHiddenLayer_toMIM (rand rand1 rand2 : Nat → Nat → Nat → ℚ) (act : ℚ → ℚ)
    (s : NetworkState) (h3 : s.layers.length = 3) (hw2 : widthAt s.layers 2 = 2) :
    (removeHiddenLayer rand act s).layers.length = 2 ∧
    (removeHiddenLayer rand act s).weights 0 = some mimMatrix ∧
    (removeHiddenLayer rand act s).biases 1 = some (zeroBias 2) ∧
    (removeHiddenLayer rand2 act (addHiddenLayer rand1 act initialState)).weights 0 =
      some mimMatrix := by
  have h2 : ¬ s.layers.length ≤ 2 := by omega
  have hlen2 : (s.layers.take (s.layers.length - 2) ++
      s.layers.drop (s.layers.length - 1)).length = 2 := by
    rw [removedLayers_length s h2, h3]
  refine ⟨?_, ?_, ?_, ?_⟩
  · rw [removeHiddenLayer_eq rand act s h2]
    exact hlen2
  · rw [removeHiddenLayer_eq rand act s h2]
    show (if 0 < (s.layers.take (s.layers.length - 2) ++
        s.layers.drop (s.layers.length - 1)).length - 1 then _ else none) = some mimMatrix
    rw [if_pos (by rw [hlen2] ; omega), if_pos ⟨rfl, hlen2⟩]
  · rw [removeHiddenLayer_eq rand act s h2]
    show (if 1 ≤ 1 ∧ 1 ≤ (s.layers.take (s.layers.length - 2) ++
        s.layers.drop (s.layers.length - 1)).length - 1 then _ else none) = some (zeroBias 2)
    rw [if_pos ⟨le_refl 1, by rw [hlen2]⟩, removedLayers_width1_of_three s h3, hw2]
  · rfl

/-- Witness for C5: a concrete three-layer state obtained by adding a
hidden layer to the constructor state. -/
theorem removeHiddenLayer_toMIM_witness :
    ((addHiddenLayer zeroRand id initialState).layers.length = 3 ∧
      widthAt (addHiddenLayer zeroRand id initialState).layers 2 = 2) ∧
    ((removeHiddenLayer zeroRand id (addHiddenLayer zeroRand id initialState)).layers.length
        = 2 ∧
      (removeHiddenLayer zeroRand id (addHiddenLayer zeroRand id initialState)).weights 0 =
        some mimMatrix ∧
      (removeHiddenLayer zeroRand id (addHiddenLayer zeroRand id initialState)).biases 1 =
        some (zeroBias 2) ∧
      (removeHiddenLayer zeroRand id (addHiddenLayer zeroRand id initialState)).weights 0 =
        some mimMatrix) :=
  ⟨⟨by decide, by decide⟩,
    removeHiddenLayer_toMIM zeroRand zeroRand zeroRand id
      (addHiddenLayer zeroRand id initialState) (by decide) (by decide)⟩

/-- C6: under the shape invariant, for an existing adjacent pair key and
in-range neuron indices, `setWeight` changes only the single entry
`weights[pair][fromNeuron][toNeuron]`: all other pair keys, all other rows,
all other entries of the edited row, all biases, the layer sequence and the
input pattern are unchanged. -/
theorem updateWeight_frame (act : ℚ → ℚ) (s : NetworkState) (p f t : Nat) (parsed : Option ℚ)
    (hs : ShapeInvariant s) (hp : p + 1 < s.layers.length)
    (hf : f < widthAt s.layers p) (ht : t < widthAt s.layers (p + 1)) :
    (∀ q, q ≠ p → (updateWeight act s p f t parsed).weights q = s.weights q) ∧
    (∃ m m2, s.weights p = some m ∧ (updateWeight act s p f t parsed).weights p = some m2 ∧
      m2.length = m.length ∧ (∀ k, k ≠ f → m2[k]? = m[k]?) ∧
      ∃ r r2, m[f]? = some (some r) ∧ m2[f]? = some (some r2) ∧ r2.length = r.length ∧
        ∀ j, j ≠ t → r2[j]? = r[j]?) ∧
    (updateWeight act s p f t parsed).biases = s.biases ∧
    (updateWeight act s p f t parsed).layers = s.layers ∧
    (updateWeight act s p f t parsed).inputPattern = s.inputPattern := by
  have hpair : p < s.layers.length - 1 := by omega
  obtain ⟨hw, _⟩ := (shapeInvariant_iff s).mp hs p hpair
  obtain ⟨m, hm, hmlen, hrows⟩ := denseWMatrix_elim hw
  have hfl : f < m.length := by rw [hmlen] ; exact hf
  obtain ⟨r, hr, hrlen, hentries⟩ := denseRow_elim (hrows m[f] (List.getElem_mem hfl))
  have htl : t < r.length := by rw [hrlen] ; exact ht
  have hmf : m[f]? = some (some r) := by rw [List.getElem?_eq_getElem hfl, hr]
  rw [updateWeight_dense_eq act s p f t parsed hm hmf hfl htl]
  refine ⟨?_, ?_, rfl, rfl, rfl⟩
  · intro q hq
    show (if q = p then _ else s.weights q) = s.weights q
    rw [if_neg hq]
  · refine ⟨m, m.set f (some (r.set t (some (parsed.getD 0)))), hm, ?_, by simp, ?_, ?_⟩
    · show (if p = p then _ else s.weights p) = _
      rw [if_pos rfl]
    · intro k hk
      exact List.getElem?_set_ne (fun h => hk h.symm)
    · refine ⟨r, r.set t (some (parsed.getD 0)), hmf, ?_, by simp, ?_⟩
      · rw [List.getElem?_set_self hfl]
      · intro j hj
        exact List.getElem?_set_ne (fun h => hj h.symm)

/-- Witness for C6 at the constructor state, editing entry `(0,1)[1][1]`. -/
theorem updateWeight_frame_witness :
    (∀ q, q ≠ 0 → (updateWeight id initialState 0 1 1 (some 2)).weights q =
      initialState.weights q) ∧
    (∃ m m2, initialState.weights 0 = some m ∧
      (updateWeight id initialState 0 1 1 (some 2)).weights 0 = some m2 ∧
      m2.length = m.length ∧ (∀ k, k ≠ 1 → m2[k]? = m[k]?) ∧
      ∃ r r2, m[1]? = some (some r) ∧ m2[1]? = some (some r2) ∧ r2.length = r.length ∧
        ∀ j, j ≠ 1 → r2[j]? = r[j]?) ∧
    (updateWeight id initialState 0 1 1 (some 2)).biases = initialState.biases ∧
    (updateWeight id initialState 0 1 1 (some 2)).layers = initialState.layers ∧
    (updateWeight id initialState 0 1 1 (some 2)).inputPattern =
      initialState.inputPattern :=
  updateWeight_frame id initialState 0 1 1 (some 2) (by decide) (by decide) (by decide)
    (by decide)

/-! ### addHiddenLayer then removeHiddenLayer restores the layer list -/

theorem remove_add_layers (rand1 rand2 : Nat → Nat → Nat → ℚ) (act1 act2 : ℚ → ℚ)
    (s : NetworkState) (hL : 2 ≤ s.layers.length) :
    (removeHiddenLayer rand2 act2 (addHiddenLayer rand1 act1 s)).layers = s.layers := by
  have hA : (s.layers.take (s.layers.length - 1)).length = s.layers.length - 1 := by
    rw [List.length_take]
    omega
  have hlen : (addHiddenLayer rand1 act1 s).layers.length = s.layers.length + 1 :=
    addHiddenLayer_layers_length rand1 act1 s (by omega)
  have h2 : ¬ (addHiddenLayer rand1 act1 s).layers.length ≤ 2 := by omega
  rw [removeHiddenLayer_eq rand2 act2 _ h2]
  show (addHiddenLayer rand1 act1 s).layers.take
      ((addHiddenLayer rand1 act1 s).layers.length - 2) ++
    (addHiddenLayer rand1 act1 s).layers.drop
      ((addHiddenLayer rand1 act1 s).layers.length - 1) = s.layers
  rw [hlen, addHiddenLayer_layers]
  have e1 : s.layers.length + 1 - 2 = s.layers.length - 1 := by omega
  have e2 : s.layers.length + 1 - 1 = s.layers.length := by omega
  rw [e1, e2]
  have hAh : (s.layers.take (s.layers.length - 1) ++
      [(⟨LayerType.hidden, 3, "Hidden " ++ toString (s.layers.length - 1)⟩ : Layer)]).length =
      s.layers.length := by
    rw [List.length_append, hA, List.length_cons, List.length_nil]
    omega
  rw [List.drop_left' hAh]
  rw [List.append_assoc, List.take_left' hA]
  exact List.take_append_drop _ _

/-- C7: adding a hidden layer and then removing one restores both the
number of layers and the width of every layer index (in fact the whole
layer list), for every pair of random sources. -/
theorem add_remove_restores_shape (rand1 rand2 : Nat → Nat → Nat → ℚ) (act1 act2 : ℚ → ℚ)
    (s : NetworkState) (hL : 2 ≤ s.layers.length) :
    (removeHiddenLayer rand2 act2 (addHiddenLayer rand1 act1 s)).layers.length =
      s.layers.length ∧
    ∀ i, widthAt (removeHiddenLayer rand2 act2 (addHiddenLayer rand1 act1 s)).layers i =
      widthAt s.layers i := by
  rw [remove_add_layers rand1 rand2 act1 act2 s hL]
  exact ⟨rfl, fun i => rfl⟩

/-- Witness for C7 at the constructor state. -/
theorem add_remove_restores_shape_witness :
    ((removeHiddenLayer zeroRand id (addHiddenLayer zeroRand id initialState)).layers.length =
      initialState.layers.length ∧
    ∀ i, widthAt (removeHiddenLayer zeroRand id
        (addHiddenLayer zeroRand id initialState)).layers i =
      widthAt initialState.layers i) :=
  add_remove_restores_shape zeroRand zeroRand id id initialState (by decide)

/-! ### setWeight storage, remove no-op, pixel toggling -/

theorem jsSetList_getElem?_self {α : Type} (l : List α) (i : Nat) (pad v : α) :
    (jsSetList l i pad v)[i]? = some v := by
  rw [jsSetList]
  by_cases h : i < l.length
  · rw [if_pos h, List.getElem?_set_self h]
  · rw [if_neg h]
    have hlen : (l ++ List.replicate (i - l.length) pad).length = i := by
      rw [List.length_append, List.length_replicate]
      omega
    rw [List.getElem?_append_right (le_of_eq hlen), hlen, Nat.sub_self]
    rfl

/-- The matrix `this.weights[layerKey] || []` as `updateWeight` first reads
it (line 325-327 create it when absent). -/
def uwM0 (s : NetworkState) (p : Nat) : WMatrix := (s.weights p).getD []

/-- The matrix after `updateWeight`'s row-creation step (lines 328-330). -/
def uwM1 (s : NetworkState) (p f : Nat) : WMatrix :=
  match (uwM0 s p)[f]? with
  | some (some _) => uwM0 s p
  | _ => jsSetList (uwM0 s p) f none (some [])

/-- The row `this.weights[layerKey][fromNeuron]` as line 331 reads it. -/
def uwRow (s : NetworkState) (p f : Nat) : WRow :=
  (((uwM1 s p f)[f]?).join).getD []

theorem updateWeight_weights_self (act : ℚ → ℚ) (s : NetworkState) (p f t : Nat)
    (parsed : Option ℚ) :
    (updateWeight act s p f t parsed).weights p =
      some (jsSetList (uwM1 s p f) f none
        (some (jsSetList (uwRow s p f) t none (some (parsed.getD 0))))) := by
  show (if p = p then some (jsSetList (uwM1 s p f) f none
      (some (jsSetList (uwRow s p f) t none (some (parsed.getD 0))))) else s.weights p) = _
  rw [if_pos rfl]

/-- C8: for every parse result of `rawValue`, `setWeight` terminates
normally and stores `parseFloat(value) || 0` at the addressed entry: the
parsed number when parsing succeeds, `0.0` when it fails (`parsed = none`,
i.e. `NaN`). -/
theorem updateWeight_stores (act : ℚ → ℚ) (s : NetworkState) (p f t : Nat)
    (parsed : Option ℚ) :
    getWeightEntry (updateWeight act s p f t parsed) p f t =
      some (some (parsed.getD 0)) := by
  rw [getWeightEntry, updateWeight_weights_self act s p f t parsed, Option.some_bind,
    jsSetList_getElem?_self]
  simp only [Option.join, Option.some_bind, id_eq]
  rw [jsSetList_getElem?_self]

/-- C9: with at most two layers, `removeHiddenLayer` returns with the whole
state — layers, weights, biases, input pattern and activations — exactly
unchanged. -/
theorem removeHiddenLayer_noop (rand : Nat → Nat → Nat → ℚ) (act : ℚ → ℚ)
    (s : NetworkState) (h : s.layers.length ≤ 2) :
    removeHiddenLayer rand act s = s := by
  rw [removeHiddenLayer, if_pos h]

/-- Witness for C9 at the two-layer constructor state. -/
theorem removeHiddenLayer_noop_witness :
    initialState.layers.length ≤ 2 ∧
    removeHiddenLayer zeroRand id initialState = initialState :=
  ⟨by decide, removeHiddenLayer_noop zeroRand id initialState (by decide)⟩

theorem togglePixel_inputPattern (act : ℚ → ℚ) (s : NetworkState) (i : Nat) :
    (togglePixel act s i).inputPattern =
      s.inputPattern.set i (1 - s.inputPattern.getD i 0) := rfl

theorem set_getD_self (l : List ℚ) (i : Nat) (hi : i < l.length) :
    l.set i (l.getD i 0) = l := by
  apply List.ext_getElem?
  intro j
  by_cases hj : j = i
  · subst hj
    rw [List.getElem?_set_self hi, List.getD_eq_getElem?_getD, List.getElem?_eq_getElem hi]
    rfl
  · exact List.getElem?_set_ne (fun h => hj h.symm)

/-- C10: toggling an in-range pixel of a binary input pattern twice
restores the pattern exactly; a single toggle flips only the entry at the
toggled index (0 to 1 and 1 to 0) and leaves every other entry unchanged. -/
theorem togglePixel_spec (act : ℚ → ℚ) (s : NetworkState) (i : Nat)
    (hbin : ∀ x ∈ s.inputPattern, x = 0 ∨ x = 1) (hi : i < s.inputPattern.length) :
    (togglePixel act (togglePixel act s i) i).inputPattern = s.inputPattern ∧
    (s.inputPattern.getD i 0 = 0 → (togglePixel act s i).inputPattern.getD i 0 = 1) ∧
    (s.inputPattern.getD i 0 = 1 → (togglePixel act s i).inputPattern.getD i 0 = 0) ∧
    ∀ j, j ≠ i → (togglePixel act s i).inputPattern[j]? = s.inputPattern[j]? := by
  have hset : (togglePixel act s i).inputPattern =
      s.inputPattern.set i (1 - s.inputPattern.getD i 0) := rfl
  have hgetD : (togglePixel act s i).inputPattern.getD i 0 =
      1 - s.inputPattern.getD i 0 := by
    rw [hset, List.getD_eq_getElem?_getD, List.getElem?_set_self hi]
    rfl
  refine ⟨?_, ?_, ?_, ?_⟩
  · rw [togglePixel_inputPattern, hgetD, hset, List.set_set]
    have harith : 1 - (1 - s.inputPattern.getD i 0) = s.inputPattern.getD i 0 := by ring
    rw [harith]
    exact set_getD_self s.inputPattern i hi
  · intro h0
    rw [hgetD, h0]
    norm_num
  · intro h1
    rw [hgetD, h1]
    norm_num
  · intro j hj
    rw [hset]
    exact List.getElem?_set_ne (fun h => hj h.symm)

/-- Witness for C10 at the constructor state, toggling pixel 0. -/
theorem togglePixel_spec_witness :
    (togglePixel id (togglePixel id initialState 0) 0).inputPattern =
        initialState.inputPattern ∧
    (initialState.inputPattern.getD 0 0 = 0 →
      (togglePixel id initialState 0).inputPattern.getD 0 0 = 1) ∧
    (initialState.inputPattern.getD 0 0 = 1 →
      (togglePixel id initialState 0).inputPattern.getD 0 0 = 0) ∧
    ∀ j, j ≠ 0 → (togglePixel id initialState 0).inputPattern[j]? =
      initialState.inputPattern[j]? :=
  togglePixel_spec id initialState 0 (by decide) (by decide)

/-- Counterexample to C5 as universally stated: on a three-layer state
whose output layer has width 1, removal still installs the MIM matrix but
sets `biases[1]` to the width-1 zero vector `[0]`, not `[0,0]`. -/
theorem removeHiddenLayer_thin_biases :
    (removeHiddenLayer zeroRand id thinState).layers.length = 2 ∧
    (removeHiddenLayer zeroRand id thinState).biases 1 = some (zeroBias 1) ∧
    ¬ (removeHiddenLayer zeroRand id thinState).biases 1 = some (zeroBias 2) := by
  refine ⟨?_, ?_, ?_⟩
  · decide
  · decide
  · decide
